import Mathlib

/-!
Verification of the chunking / embedding / retrieval core of the Rag-Intro
repository, shallowly embedded in Lean.  Python strings are modelled as
`List Char`, Python ints as `Int` (slice indices may be negative), a call
that may raise as a `Result` value, and the external providers (the
embedding model, the generation model, the chroma vector store) as
function parameters or spec-modelled definitions.
-/

namespace RagIntro

/-- Result of a Python call that may raise: either a value or an exception. -/
inductive Result (ε α : Type) where
  | ok : α → Result ε α
  | error : ε → Result ε α
deriving DecidableEq, Repr

/-- Effective index of a Python slice bound `i` into a sequence of length `n`:
negative indices count from the end, then the bound is clamped to `[0, n]`. -/
def pyIdx (n : Nat) (i : Int) : Nat :=
  (min (n : Int) (max 0 (if i < 0 then (n : Int) + i else i))).toNat

/-- Python slice `l[a:b]` on a string modelled as a list of characters. -/
def pySlice (l : List Char) (a b : Int) : List Char :=
  (l.take (pyIdx l.length b)).drop (pyIdx l.length a)

/-- The `while start < len(text)` loop body of `split_text`
(src/src/embedding/embeddings.py, lines 42-48), with explicit fuel: each
iteration appends `text[start : start + chunk_size]` and advances the cursor
to `end - chunk_overlap`.  Running out of fuel while the loop guard still
holds returns `none`. -/
def splitTextLoop (text : List Char) (chunk_size chunk_overlap : Int) :
    Nat → Int → List (List Char) → Option (List (List Char))
  | 0, start, chunks =>
      if start < (text.length : Int) then none else some chunks
  | fuel + 1, start, chunks =>
      if start < (text.length : Int) then
        splitTextLoop text chunk_size chunk_overlap fuel
          (start + chunk_size - chunk_overlap)
          (chunks ++ [pySlice text start (start + chunk_size)])
      else some chunks

/-- `split_text` from src/src/embedding/embeddings.py.  The source loop has no
fuel; `text.length` steps are enough whenever the loop terminates at all
(proved below for every valid configuration), so a `none` result means the
Python loop never exits. -/
def split_text (text : List Char) (chunk_size : Int := 1000)
    (chunk_overlap : Int := 20) : Option (List (List Char)) :=
  splitTextLoop text chunk_size chunk_overlap text.length 0 []

/-- The chunk the algorithm emits at cursor position `start`:
`text[start : start + size]`, clipped to the end of the string. -/
def chunkAt (text : List Char) (size start : Nat) : List Char :=
  (text.drop start).take size

/-- Number of cursor positions `0, step, 2*step, ...` that are `< len`
(for `step > 0`). -/
def numStarts (len step : Nat) : Nat :=
  if len = 0 then 0 else (len - 1) / step + 1

/-- The chunk sequence described by the spec: the substrings at cursor
positions `0, step, 2*step, ...`, stopping at the first position `≥ len`,
where `step = chunk_size - chunk_overlap`. -/
def specChunks (text : List Char) (size step : Nat) : List (List Char) :=
  (List.range (numStarts text.length step)).map (fun k => chunkAt text size (k * step))

/-- The chunk sequence generated from cursor position `start` onwards,
by well-founded recursion on the distance to the end of the text. -/
def chunksFrom (text : List Char) (size step start : Nat) : List (List Char) :=
  if h : 0 < step ∧ start < text.length then
    chunkAt text size start :: chunksFrom text size step (start + step)
  else []
termination_by text.length - start
decreasing_by omega

/-- Last `n` characters of a string (the suffix the overlap guarantee
speaks about). -/
def lastN (n : Nat) (l : List Char) : List Char :=
  l.drop (l.length - n)

/-- The exact-overlap reading of the spec guarantee: in the returned sequence,
the length-`chunk_overlap` suffix of chunk `k` equals the prefix of chunk
`k+1`, for every consecutive pair in which chunk `k+1` is not the last chunk
of the sequence. -/
def exactOverlapClaim (text : List Char) (size overlap : Int) : Prop :=
  ∀ cs, split_text text size overlap = some cs →
    ∀ k c c', cs[k]? = some c → cs[k + 1]? = some c' → k + 2 < cs.length →
      lastN overlap.toNat c = c'.take overlap.toNat

/-- Fuel-indexed decimal digit emitter: `fuel > n` steps always suffice. -/
def natDigitsAux : Nat → Nat → List Char
  | 0, _ => []
  | fuel + 1, n =>
    if n < 10 then [Nat.digitChar n]
    else natDigitsAux fuel (n / 10) ++ [Nat.digitChar (n % 10)]

/-- Decimal representation of a natural number as characters, as produced by a
Python f-string interpolation of an int. -/
def natDigits (n : Nat) : List Char := natDigitsAux (n + 1) n

/-- Numeric value of a decimal digit character. -/
def digitVal (ch : Char) : Nat := ch.toNat - 48

/-- A raw ingested document: an id together with its full text. -/
structure Document where
  id : List Char
  text : List Char
deriving DecidableEq, Repr

/-- A chunk record as built by `process_documents_for_embedding`: the
embedding is absent until the embedding pass fills it in. -/
structure ChunkRec where
  id : List Char
  text : List Char
  embedding : Option (List Int)
deriving DecidableEq, Repr

/-- The id suffix attached to the `n`-th chunk (1-based) of a document. -/
def chunkTag (n : Nat) : List Char :=
  ('_' :: 'c' :: 'h' :: 'u' :: 'n' :: 'k' :: []) ++ natDigits n

/-- The chunking pass of `process_documents_for_embedding`
(src/src/embedding/embeddings.py, lines 64-70): split the text with the
default configuration and tag each chunk with its 1-based index.  The `none`
arm of the match is dead code: the default configuration (1000, 20) is valid,
so `split_text` always returns `some` (lemma `split_text_valid`). -/
def chunkDoc (doc : Document) : List ChunkRec :=
  let cs : List (List Char) :=
    match split_text doc.text 1000 20 with
    | some cs => cs
    | none => []
  cs.enum.map (fun ic => ⟨doc.id ++ chunkTag (ic.1 + 1), ic.2, none⟩)

/-- The embedding pass of `process_documents_for_embedding` (lines 73-74):
call the provider on each chunk text in order; the first provider exception
propagates. -/
def embedAll {ε : Type} (embed : List Char → Result ε (List Int)) :
    List ChunkRec → Result ε (List ChunkRec)
  | [] => .ok []
  | ch :: rest =>
    match embed ch.text with
    | .error e => .error e
    | .ok v =>
      match embedAll embed rest with
      | .error e => .error e
      | .ok rest2 => .ok ({ ch with embedding := some v } :: rest2)

/-- `process_documents_for_embedding` from src/src/embedding/embeddings.py:
chunk every document, then embed every chunk. -/
def process_documents_for_embedding {ε : Type}
    (embed : List Char → Result ε (List Int)) (documents : List Document) :
    Result ε (List ChunkRec) :=
  embedAll embed (documents.flatMap chunkDoc)

/-- A persisted record in the vector store: id, chunk text and embedding. -/
structure Entry where
  id : List Char
  text : List Char
  embedding : List Int
deriving DecidableEq, Repr

/-- Modelled from the spec: the chroma collection `upsert` (an external
collaborator, not part of this repository) — insert-or-replace by chunk id. -/
def upsertEntry (store : List Entry) (e : Entry) : List Entry :=
  if store.any (fun x => x.id == e.id) then
    store.map (fun x => if x.id == e.id then e else x)
  else store ++ [e]

/-- `DocumentRetriever.add_documents` from src/src/retrieval/document_store.py:
upsert the chunks one by one; reading a missing `embedding` key raises (the
spec names this `MissingEmbeddingError`) before that chunk is upserted.  The
error carries the store state at the failure together with the failing id. -/
def add_documents (store : List Entry) :
    List ChunkRec → Result (List Entry × List Char) (List Entry)
  | [] => .ok store
  | d :: rest =>
    match d.embedding with
    | none => .error (store, d.id)
    | some emb => add_documents (upsertEntry store ⟨d.id, d.text, emb⟩) rest

/-- The store obtained by upserting a list of fully-embedded chunks
(chunks without an embedding are ignored; used only on all-embedded lists). -/
def applyUpserts (store : List Entry) : List ChunkRec → List Entry
  | [] => store
  | d :: rest =>
    match d.embedding with
    | none => store
    | some emb => applyUpserts (upsertEntry store ⟨d.id, d.text, emb⟩) rest

/-- `initialize_source_retriever` from src/src/ui/models/retriever.py: embed
all chunks of the document first; only if that whole pass succeeds is
`add_documents` called.  Any exception is caught and `None` is returned (the
Bool is `false`), leaving the store as it was at the failure point. -/
def initialize_source_retriever {ε : Type}
    (embed : List Char → Result ε (List Int)) (store : List Entry)
    (doc : Document) : List Entry × Bool :=
  match process_documents_for_embedding embed [doc] with
  | .error _ => (store, false)
  | .ok chunks =>
    match add_documents store chunks with
    | .error (s, _) => (s, false)
    | .ok s => (s, true)

/-- Squared L2 distance between two embedding vectors (a concrete instance of
the fixed distance metric the spec leaves to the store). -/
def sqDist (u v : List Int) : Int :=
  (u.zipWith (fun a b => (a - b) * (a - b)) v).foldl (· + ·) 0

/-- Modelled from the spec: the chroma collection `query` (an external
collaborator, not part of this repository) — all stored entries ranked
nearest-first by the distance metric, truncated to at most `k`, texts
returned. -/
def collectionQuery (store : List Entry) (qe : List Int) (k : Nat) : List (List Char) :=
  ((store.insertionSort
      (fun x y => sqDist x.embedding qe ≤ sqDist y.embedding qe)).take k).map
    (fun x => x.text)

/-- `DocumentRetriever.query_documents` from
src/src/retrieval/document_store.py: embed the question, query the collection
with it, and flatten the per-embedding result lists (one embedding, so one
sublist). -/
def query_documents (embedQ : List Char → List Int) (store : List Entry)
    (question : List Char) (n_results : Nat := 2) : List (List Char) :=
  (collectionQuery store (embedQ question) n_results :: []).flatten

/-- The apostrophe character, spelled by code point to keep the prompt text
byte-faithful to the source. -/
def apos : Char := Char.ofNat 39

/-- The fixed instructional text of the prompt template in
src/src/retrieval/response_generator.py: answer from the retrieved context
only, admit not knowing, at most three sentences. -/
def instrText : List Char :=
  ("You are an assistant for question-answering tasks. Use the following pieces of retrieved context to answer the question. If you don".data) ++
    (apos :: []) ++ ("t know the answer, say that you don".data) ++ (apos :: []) ++
    ("t know. Use three sentences maximum and keep the answer concise.".data)

/-- The fixed context-block header of the prompt template. -/
def ctxHeader : List Char := "\n\nContext:\n".data

/-- The fixed question header of the prompt template. -/
def questionHeader : List Char := "\n\nQuestion:\n".data

/-- The separator the chunks are joined with. -/
def sepNN : List Char := '\n' :: '\n' :: []

/-- Python `str.strip()`: whitespace removed from both ends. -/
def pyStrip (l : List Char) : List Char :=
  ((l.dropWhile Char.isWhitespace).reverse.dropWhile Char.isWhitespace).reverse

/-- `generate_response` from src/src/retrieval/response_generator.py: join
the retrieved chunks with a blank line, wrap them in the fixed template
together with the question, send the prompt to the generation provider, and
return the stripped response text. -/
def generate_response (generate : List Char → List Char) (question : List Char)
    (relevant_chunks : List (List Char)) : List Char :=
  let context := List.intercalate sepNN relevant_chunks
  let prompt := instrText ++ ctxHeader ++ context ++ questionHeader ++ question
  pyStrip (generate prompt)

lemma pyIdx_ofNat (n : Nat) (a : Nat) : pyIdx n a = min n a := by
  unfold pyIdx
  have h0 : ¬ ((a : Int) < 0) := by omega
  simp only [h0, if_false]
  omega

lemma pySlice_eq_chunkAt (text : List Char) (size start : Nat) :
    pySlice text (start : Int) ((start : Int) + (size : Int)) = chunkAt text size start := by
  unfold pySlice chunkAt
  have h1 : ((start : Int) + (size : Int)) = ((start + size : Nat) : Int) := by push_cast; ring
  rw [h1, pyIdx_ofNat, pyIdx_ofNat]
  rcases le_or_lt (start + size) text.length with h | h
  · have hs : start ≤ text.length := by omega
    rw [min_eq_right h, min_eq_right hs, List.drop_take, Nat.add_sub_cancel_left]
  · have h2 : min text.length (start + size) = text.length := by omega
    rw [h2]
    rcases le_or_lt start text.length with hs | hs
    · rw [min_eq_right hs, List.take_length, List.take_of_length_le]
      rw [List.length_drop]; omega
    · have h3 : min text.length start = text.length := by omega
      rw [h3, List.take_length, List.drop_length,
        List.drop_of_length_le (le_of_lt hs), List.take_nil]

/-- While the cursor is below the end of the text and the advance step is
non-positive (`chunk_size ≤ chunk_overlap`), the loop guard holds forever:
no amount of fuel lets the loop exit. -/
lemma splitTextLoop_none_of_step_nonpos (text : List Char) (size overlap : Int)
    (hstep : size ≤ overlap) :
    ∀ (fuel : Nat) (start : Int) (acc : List (List Char)),
      start < (text.length : Int) →
      splitTextLoop text size overlap fuel start acc = none := by
  intro fuel
  induction fuel with
  | zero => intro start acc h; simp [splitTextLoop, h]
  | succ n ih =>
      intro start acc h
      simp only [splitTextLoop, h, if_true]
      exact ih _ _ (by omega)

/-- C1: the spec says a configuration with `chunk_overlap ≥ chunk_size` must be
rejected with `InvalidConfiguration` before any work begins.  The code has no
such check: for every nonempty text, the `while` loop of `split_text` never
terminates (no fuel bound suffices), so e.g. `split_text "abc" 5 5` diverges
instead of raising. -/
theorem C1_split_text_diverges (text : List Char) (size overlap : Int)
    (htext : text ≠ []) (hcfg : size ≤ overlap) :
    (∀ (fuel : Nat) (start : Int) (acc : List (List Char)),
        start < (text.length : Int) →
        splitTextLoop text size overlap fuel start acc = none) ∧
      split_text text size overlap = none := by
  have hlen : 0 < text.length := List.length_pos.mpr htext
  refine ⟨splitTextLoop_none_of_step_nonpos text size overlap hcfg, ?_⟩
  exact splitTextLoop_none_of_step_nonpos text size overlap hcfg _ _ _ (by omega)

/-- Witness for C1 at the concrete failing input from the spec:
`split_text "abc" 5 5` diverges. -/
theorem C1_split_text_diverges_witness :
    split_text ('a' :: 'b' :: 'c' :: []) 5 5 = none :=
  (C1_split_text_diverges ('a' :: 'b' :: 'c' :: []) 5 5 (by decide) (by decide)).2

/-- For a positive advance step, the loop computes `chunksFrom`: fuel
`text.length - start` is always enough. -/
lemma splitTextLoop_eq_chunksFrom (text : List Char) (size overlap : Int)
    (hs : 0 < size) (ho : 0 ≤ overlap) (hov : overlap < size) :
    ∀ (fuel : Nat) (start : Nat) (acc : List (List Char)),
      text.length ≤ start + fuel →
      splitTextLoop text size overlap fuel (start : Int) acc =
        some (acc ++ chunksFrom text size.toNat (size - overlap).toNat start) := by
  intro fuel
  induction fuel with
  | zero =>
      intro start acc hfuel
      have hge : ¬ ((start : Int) < (text.length : Int)) := by omega
      rw [splitTextLoop, if_neg hge, chunksFrom, dif_neg (by omega)]
      simp
  | succ n ih =>
      intro start acc hfuel
      by_cases hlt : start < text.length
      · have hlt' : (start : Int) < (text.length : Int) := by omega
        have hunfold : chunksFrom text size.toNat (size - overlap).toNat start =
            chunkAt text size.toNat start ::
              chunksFrom text size.toNat (size - overlap).toNat
                (start + (size - overlap).toNat) := by
          rw [chunksFrom, dif_pos ⟨by omega, hlt⟩]
        rw [splitTextLoop, if_pos hlt']
        have hstep : (start : Int) + size - overlap =
            ((start + (size - overlap).toNat : Nat) : Int) := by omega
        have hsize : (start : Int) + size = ((start : Int) + ((size.toNat : Nat) : Int)) := by
          omega
        rw [hstep, hsize, pySlice_eq_chunkAt text size.toNat start,
          ih (start + (size - overlap).toNat) _ (by omega), hunfold]
        simp
      · have hge : ¬ ((start : Int) < (text.length : Int)) := by omega
        rw [splitTextLoop, if_neg hge, chunksFrom, dif_neg (by omega)]
        simp

/-- Index characterization of `chunksFrom`: the `k`-th chunk starting from
cursor `start` is the window at `start + k * step`, present exactly when that
cursor position is below the end of the text. -/
lemma chunksFrom_getElem? (text : List Char) (size step : Nat) (hstep : 0 < step) :
    ∀ (k start : Nat),
      (chunksFrom text size step start)[k]? =
        if start + k * step < text.length then
          some (chunkAt text size (start + k * step))
        else none := by
  intro k
  induction k with
  | zero =>
      intro start
      by_cases h : start < text.length
      · rw [chunksFrom, dif_pos ⟨hstep, h⟩]
        simp [h]
      · rw [chunksFrom, dif_neg (by omega)]
        simp [h]
  | succ n ih =>
      intro start
      by_cases h : start < text.length
      · rw [chunksFrom, dif_pos ⟨hstep, h⟩]
        rw [List.getElem?_cons_succ, ih (start + step)]
        have harith : start + step + n * step = start + (n + 1) * step := by ring
        rw [harith]
      · rw [chunksFrom, dif_neg (by omega)]
        have hout : ¬ (start + (n + 1) * step < text.length) := by
          have : start ≤ start + (n + 1) * step := by omega
          omega
        simp [hout]

/-- Cursor position `k * step` is inside the text iff `k < numStarts`. -/
lemma lt_numStarts_iff (len step : Nat) (hstep : 0 < step) (k : Nat) :
    k * step < len ↔ k < numStarts len step := by
  unfold numStarts
  rcases Nat.eq_zero_or_pos len with h0 | h0
  · simp [h0]
  · rw [if_neg (by omega)]
    constructor
    · intro h
      have : k ≤ (len - 1) / step := by
        rw [Nat.le_div_iff_mul_le hstep]; omega
      omega
    · intro h
      have hk : k ≤ (len - 1) / step := by omega
      have := (Nat.le_div_iff_mul_le hstep).mp hk
      omega

/-- `chunksFrom` starting at cursor 0 is exactly the spec chunk sequence. -/
lemma chunksFrom_eq_specChunks (text : List Char) (size step : Nat) (hstep : 0 < step) :
    chunksFrom text size step 0 = specChunks text size step := by
  apply List.ext_getElem?
  intro k
  rw [chunksFrom_getElem? text size step hstep k 0]
  unfold specChunks
  rw [List.getElem?_map]
  by_cases h : k < numStarts text.length step
  · rw [List.getElem?_range h]
    have hk := (lt_numStarts_iff text.length step hstep k).mpr h
    rw [if_pos (show 0 + k * step < text.length by omega)]
    simp
  · have hge : (List.range (numStarts text.length step))[k]? = none :=
      List.getElem?_eq_none (by simpa using by omega)
    rw [hge]
    have hiff := lt_numStarts_iff text.length step hstep k
    rw [if_neg (by omega)]
    simp

/-- On every valid configuration `split_text` terminates and returns the spec
chunk sequence (shared between several claims below). -/
lemma split_text_valid (text : List Char) (size overlap : Int)
    (hs : 0 < size) (ho : 0 ≤ overlap) (hov : overlap < size) :
    split_text text size overlap =
      some (specChunks text size.toNat (size - overlap).toNat) := by
  unfold split_text
  have h := splitTextLoop_eq_chunksFrom text size overlap hs ho hov text.length 0 []
    (by omega)
  simpa [chunksFrom_eq_specChunks text size.toNat (size - overlap).toNat (by omega)] using h

/-- C4: for every text and every valid configuration, `split_text` terminates
and returns exactly the substrings at cursor positions
`0, step, 2*step, ...` (`step = chunk_size - chunk_overlap`), each clipped to
the end of the string, stopping at the first position `≥ length text`; on an
empty text this is the empty sequence, not an error. -/
theorem C4_split_text_spec (text : List Char) (size overlap : Int)
    (hs : 0 < size) (ho : 0 ≤ overlap) (hov : overlap < size) :
    split_text text size overlap =
      some (specChunks text size.toNat (size - overlap).toNat) :=
  split_text_valid text size overlap hs ho hov

/-- Witness for C4: `split_text "abc" 2 1 = ["ab", "bc", "c"]`, and
`split_text "" 1000 20 = []`. -/
theorem C4_split_text_spec_witness :
    split_text ('a' :: 'b' :: 'c' :: []) 2 1 =
        some (('a' :: 'b' :: []) :: ('b' :: 'c' :: []) :: ('c' :: []) :: []) ∧
      split_text [] 1000 20 = some [] := by
  constructor
  · rw [C4_split_text_spec ('a' :: 'b' :: 'c' :: []) 2 1 (by decide) (by decide) (by decide)]
    decide
  · rw [C4_split_text_spec [] 1000 20 (by decide) (by decide) (by decide)]
    decide

/-- Index characterization of the spec chunk sequence. -/
lemma specChunks_getElem? (text : List Char) (size step : Nat) (hstep : 0 < step)
    (k : Nat) :
    (specChunks text size step)[k]? =
      if k * step < text.length then some (chunkAt text size (k * step)) else none := by
  rw [← chunksFrom_eq_specChunks text size step hstep,
    chunksFrom_getElem? text size step hstep k 0]
  simp

/-- C5 (counterexample): the exact-overlap guarantee fails for a pair that does
not involve the last chunk.  With `chunk_size = 4`, `chunk_overlap = 3` (valid:
`0 ≤ 3 < 4`) on `"abc"`, the code returns `["abc", "bc", "c"]`; the pair
(chunk 0, chunk 1) is not exempted (chunk 2 is the last), yet the
length-3 suffix of `"abc"` is `"abc"` while the prefix of `"bc"` is `"bc"`. -/
theorem C5_counterexample :
    ¬ exactOverlapClaim ('a' :: 'b' :: 'c' :: []) 4 3 := by
  intro hclaim
  have h := hclaim (('a' :: 'b' :: 'c' :: []) :: ('b' :: 'c' :: []) :: ('c' :: []) :: [])
    (by decide) 0 ('a' :: 'b' :: 'c' :: []) ('b' :: 'c' :: []) (by decide) (by decide)
    (by decide)
  exact absurd h (by decide)

/-- C5 (amended): for every valid configuration, (a) whenever chunk `k` has
full length (its window `[k*step, k*step + chunk_size)` fits inside the text
— which always holds for non-trailing chunks when `2*chunk_overlap ≤
chunk_size`, but can fail for several trailing chunks when `2*chunk_overlap >
chunk_size`, not only the last), the length-`chunk_overlap` suffix of chunk
`k` equals the length-`chunk_overlap` prefix of chunk `k+1`; and (b) every
character of the text appears, at its own offset, in at least one chunk. -/
theorem C5_overlap_and_coverage (text : List Char) (size overlap : Int)
    (hs : 0 < size) (ho : 0 ≤ overlap) (hov : overlap < size)
    (cs : List (List Char)) (hcs : split_text text size overlap = some cs) :
    (∀ k c c', cs[k]? = some c → cs[k + 1]? = some c' →
        k * (size - overlap).toNat + size.toNat ≤ text.length →
        lastN overlap.toNat c = c'.take overlap.toNat) ∧
      (∀ p, p < text.length → ∃ k w, cs[k]? = some w ∧
          k * (size - overlap).toNat ≤ p ∧
          w[p - k * (size - overlap).toNat]? = text[p]?) := by
  have hstep : 0 < (size - overlap).toNat := by omega
  have hsplit := split_text_valid text size overlap hs ho hov
  rw [hcs] at hsplit
  have hcs' : cs = specChunks text size.toNat (size - overlap).toNat :=
    Option.some_injective _ hsplit
  subst hcs'
  set step := (size - overlap).toNat with hstepdef
  set sizeN := size.toNat with hsizedef
  set ovN := overlap.toNat with hovdef
  have hsum : sizeN = ovN + step := by omega
  constructor
  · intro k c c' hc hc' hfull
    rw [specChunks_getElem? text sizeN step hstep k] at hc
    rw [specChunks_getElem? text sizeN step hstep (k + 1)] at hc'
    by_cases hk : k * step < text.length
    · rw [if_pos hk] at hc
      by_cases hk' : (k + 1) * step < text.length
      · rw [if_pos hk'] at hc'
        have hc : c = chunkAt text sizeN (k * step) := (Option.some_injective _ hc).symm
        have hc' : c' = chunkAt text sizeN ((k + 1) * step) :=
          (Option.some_injective _ hc').symm
        subst hc; subst hc'
        unfold chunkAt lastN
        have hlen : ((text.drop (k * step)).take sizeN).length = sizeN := by
          rw [List.length_take, List.length_drop]
          omega
        rw [hlen]
        have h1 : sizeN - ovN = step := by omega
        rw [h1, List.drop_take, List.drop_drop, List.take_take]
        have h2 : sizeN - step = ovN := by omega
        have h3 : k * step + step = (k + 1) * step := by ring
        have h4 : ovN ⊓ sizeN = ovN := by
          rw [inf_eq_min]
          exact min_eq_left (by omega)
        rw [h2, h3, h4]
      · rw [if_neg hk'] at hc'
        exact absurd hc' (by simp)
    · rw [if_neg hk] at hc
      exact absurd hc (by simp)
  · intro p hp
    have hle : p / step * step ≤ p := Nat.div_mul_le_self p step
    have heq : step * (p / step) + p % step = p := Nat.div_add_mod p step
    have heq2 : p / step * step + p % step = p := by
      rw [Nat.mul_comm step (p / step)] at heq
      exact heq
    have hmodlt : p % step < step := Nat.mod_lt p hstep
    refine ⟨p / step, chunkAt text sizeN (p / step * step), ?_, ?_, ?_⟩
    · rw [specChunks_getElem? text sizeN step hstep (p / step),
        if_pos (show p / step * step < text.length by omega)]
    · exact hle
    · have hmod : p - p / step * step = p % step := by omega
      unfold chunkAt
      rw [hmod, List.getElem?_take, if_pos (show p % step < sizeN by omega),
        List.getElem?_drop]
      congr 1

/-- Witness for C5 (amended) at `split_text "abcd" 3 1 = ["abc", "cd"]`:
the length-1 suffix of `"abc"` equals the length-1 prefix of `"cd"`, and
character 3 (`d`) appears at offset 1 of chunk 1. -/
theorem C5_overlap_and_coverage_witness :
    lastN (1 : Int).toNat ('a' :: 'b' :: 'c' :: []) =
        ('c' :: 'd' :: []).take (1 : Int).toNat ∧
      ∃ k w,
        (('a' :: 'b' :: 'c' :: []) :: ('c' :: 'd' :: []) :: [])[k]? = some w ∧
        k * ((3 : Int) - 1).toNat ≤ 3 ∧
        w[3 - k * ((3 : Int) - 1).toNat]? = ('a' :: 'b' :: 'c' :: 'd' :: [])[3]? := by
  have h := C5_overlap_and_coverage ('a' :: 'b' :: 'c' :: 'd' :: []) 3 1
    (by decide) (by decide) (by decide)
    (('a' :: 'b' :: 'c' :: []) :: ('c' :: 'd' :: []) :: []) (by decide)
  exact ⟨h.1 0 ('a' :: 'b' :: 'c' :: []) ('c' :: 'd' :: []) (by decide) (by decide)
    (by decide), h.2 3 (by decide)⟩

/-- C9: for every nonempty text and valid configuration, every chunk returned
by `split_text` is nonempty and has length at most `chunk_size`. -/
theorem C9_chunk_length_bounds (text : List Char) (size overlap : Int)
    (htext : text ≠ []) (hs : 0 < size) (ho : 0 ≤ overlap) (hov : overlap < size)
    (cs : List (List Char)) (hcs : split_text text size overlap = some cs) :
    ∀ c ∈ cs, 1 ≤ c.length ∧ c.length ≤ size.toNat := by
  have hstep : 0 < (size - overlap).toNat := by omega
  have hsplit := split_text_valid text size overlap hs ho hov
  rw [hcs] at hsplit
  have hcs' : cs = specChunks text size.toNat (size - overlap).toNat :=
    Option.some_injective _ hsplit
  subst hcs'
  intro c hc
  unfold specChunks at hc
  rw [List.mem_map] at hc
  obtain ⟨k, hk, hck⟩ := hc
  rw [List.mem_range] at hk
  have hklt : k * (size - overlap).toNat < text.length :=
    (lt_numStarts_iff text.length (size - overlap).toNat hstep k).mpr hk
  subst hck
  unfold chunkAt
  rw [List.length_take, List.length_drop]
  omega

/-- Witness for C9 at `split_text "abc" 2 1 = ["ab", "bc", "c"]`: the final
chunk `"c"` has length between 1 and 2. -/
theorem C9_chunk_length_bounds_witness :
    1 ≤ ('c' :: []).length ∧ ('c' :: []).length ≤ (2 : Int).toNat :=
  C9_chunk_length_bounds ('a' :: 'b' :: 'c' :: []) 2 1 (by decide) (by decide)
    (by decide) (by decide)
    (('a' :: 'b' :: []) :: ('b' :: 'c' :: []) :: ('c' :: []) :: []) (by decide)
    ('c' :: []) (by decide)

/-- C10: with `chunk_size = 5`, `chunk_overlap = 3` on `"abcdef"`, the code
returns `["abcde", "cdef", "ef"]`, whose final chunk `"ef"` is a suffix of the
previous chunk `"cdef"` — it is entirely contained in it and contributes no
new characters. -/
theorem C10_redundant_final_chunk :
    split_text ('a' :: 'b' :: 'c' :: 'd' :: 'e' :: 'f' :: []) 5 3 =
        some (('a' :: 'b' :: 'c' :: 'd' :: 'e' :: []) ::
          ('c' :: 'd' :: 'e' :: 'f' :: []) :: ('e' :: 'f' :: []) :: []) ∧
      (('a' :: 'b' :: 'c' :: 'd' :: 'e' :: []) ::
          ('c' :: 'd' :: 'e' :: 'f' :: []) :: ('e' :: 'f' :: []) :: []).getLast? =
        some ('e' :: 'f' :: []) ∧
      List.IsSuffix ('e' :: 'f' :: []) ('c' :: 'd' :: 'e' :: 'f' :: []) := by
  refine ⟨by decide, by decide, ⟨'c' :: 'd' :: [], rfl⟩⟩

/-- The numeric value of the digit character of `n < 10` is `n` itself. -/
lemma digitVal_digitChar (n : Nat) (h : n < 10) : digitVal (Nat.digitChar n) = n := by
  interval_cases n <;> decide

/-- Folding the decimal digits back into a number recovers the number (with
an arbitrary accumulator seed). -/
lemma foldl_natDigitsAux :
    ∀ (fuel n : Nat), n < fuel → ∀ a : Nat,
      (natDigitsAux fuel n).foldl (fun a ch => a * 10 + digitVal ch) a =
        a * 10 ^ (natDigitsAux fuel n).length + n := by
  intro fuel
  induction fuel with
  | zero => intro n h; omega
  | succ f ih =>
    intro n hn a
    by_cases h : n < 10
    · rw [natDigitsAux, if_pos h]
      simp [List.foldl, digitVal_digitChar n h]
    · rw [natDigitsAux, if_neg h]
      have hlt : n / 10 < f := by
        have := Nat.div_lt_self (show 0 < n by omega) (show (1 : Nat) < 10 by omega)
        omega
      rw [List.foldl_append, ih (n / 10) hlt a, List.length_append]
      have hd : 10 * (n / 10) + n % 10 = n := Nat.div_add_mod n 10
      have hdig : digitVal (Nat.digitChar (n % 10)) = n % 10 :=
        digitVal_digitChar (n % 10) (Nat.mod_lt n (by omega))
      simp only [List.foldl, List.length_cons, List.length_nil]
      rw [hdig]
      calc (a * 10 ^ (natDigitsAux f (n / 10)).length + n / 10) * 10 + n % 10
          = a * (10 ^ (natDigitsAux f (n / 10)).length * 10) + (10 * (n / 10) + n % 10) := by
            ring
        _ = a * 10 ^ ((natDigitsAux f (n / 10)).length + (0 + 1)) + n := by
            rw [hd]
            ring

/-- Parsing the decimal representation recovers the number. -/
lemma natDigits_leftInverse (n : Nat) :
    (natDigits n).foldl (fun a ch => a * 10 + digitVal ch) 0 = n := by
  unfold natDigits
  rw [foldl_natDigitsAux (n + 1) n (by omega) 0]
  ring

/-- C3: if some chunk in the sequence lacks an embedding, `add_documents`
fails (the `MissingEmbeddingError` of the spec taxonomy) at the first such
chunk, and at the failure the store reflects only the chunks strictly before
it — in particular the failing chunk has not been stored. -/
theorem C3_add_documents_missing_embedding (store : List Entry)
    (docs : List ChunkRec) (h : ∃ d ∈ docs, d.embedding = none) :
    ∃ pre d post, docs = pre ++ d :: post ∧
      (∀ d2 ∈ pre, d2.embedding ≠ none) ∧ d.embedding = none ∧
      add_documents store docs = .error (applyUpserts store pre, d.id) := by
  induction docs generalizing store with
  | nil =>
      obtain ⟨d, hd, _⟩ := h
      exact absurd hd (List.not_mem_nil d)
  | cons d0 rest ih =>
      cases hemb : d0.embedding with
      | none =>
          refine ⟨[], d0, rest, rfl, ?_, hemb, ?_⟩
          · intro d2 hd2
            exact absurd hd2 (List.not_mem_nil d2)
          · rw [add_documents, hemb]
            rfl
      | some emb =>
          have h2 : ∃ d ∈ rest, d.embedding = none := by
            obtain ⟨d, hd, hdnone⟩ := h
            rcases List.mem_cons.mp hd with heq | hmem
            · rw [heq, hemb] at hdnone
              exact absurd hdnone (by simp)
            · exact ⟨d, hmem, hdnone⟩
          obtain ⟨pre, d, post, hsplitn, hpre, hdnone, herr⟩ :=
            ih (upsertEntry store ⟨d0.id, d0.text, emb⟩) h2
          refine ⟨d0 :: pre, d, post, by rw [hsplitn]; simp, ?_, hdnone, ?_⟩
          · intro d2 hd2
            rcases List.mem_cons.mp hd2 with heq | hmem
            · rw [heq, hemb]
              simp
            · exact hpre d2 hmem
          · simp only [add_documents, hemb, applyUpserts]
            exact herr

/-- Witness for C3: a single chunk with no embedding makes `add_documents`
fail on the empty store, storing nothing. -/
theorem C3_add_documents_missing_embedding_witness :
    ∃ pre d post,
      (⟨'x' :: [], 't' :: [], none⟩ : ChunkRec) :: [] = pre ++ d :: post ∧
      (∀ d2 ∈ pre, d2.embedding ≠ none) ∧ d.embedding = none ∧
      add_documents [] ((⟨'x' :: [], 't' :: [], none⟩ : ChunkRec) :: []) =
        .error (applyUpserts [] pre, d.id) :=
  C3_add_documents_missing_embedding []
    ((⟨'x' :: [], 't' :: [], none⟩ : ChunkRec) :: [])
    ⟨⟨'x' :: [], 't' :: [], none⟩, by decide, rfl⟩

/-- If the provider fails on some chunk of the list, the embedding pass as a
whole fails. -/
lemma embedAll_error_of_mem {ε : Type} (embed : List Char → Result ε (List Int)) :
    ∀ cs : List ChunkRec, (∃ ch ∈ cs, ∃ e, embed ch.text = .error e) →
      ∃ e, embedAll embed cs = .error e := by
  intro cs
  induction cs with
  | nil =>
      rintro ⟨ch, hmem, _⟩
      exact absurd hmem (List.not_mem_nil ch)
  | cons c0 rest ih =>
      rintro ⟨ch, hmem, e, he⟩
      cases hc : embed c0.text with
      | error e0 => exact ⟨e0, by rw [embedAll, hc]⟩
      | ok v =>
          rcases List.mem_cons.mp hmem with heq | hmem2
          · rw [heq, hc] at he
            exact absurd he (by simp)
          · obtain ⟨e1, hrest⟩ := ih ⟨ch, hmem2, e, he⟩
            exact ⟨e1, by rw [embedAll, hc, hrest]⟩

/-- C2: if the embedding provider fails on any chunk of a document, the whole
of `process_documents_for_embedding` raises, `add_documents` is never reached
in `initialize_source_retriever`, and the store is left exactly as it was —
zero chunks of that document are persisted. -/
theorem C2_fail_fast_ingestion {ε : Type}
    (embed : List Char → Result ε (List Int)) (store : List Entry)
    (doc : Document) (h : ∃ ch ∈ chunkDoc doc, ∃ e, embed ch.text = .error e) :
    (∃ e, process_documents_for_embedding embed [doc] = .error e) ∧
      initialize_source_retriever embed store doc = (store, false) := by
  have hflat : ([doc] : List Document).flatMap chunkDoc = chunkDoc doc := by
    simp [List.flatMap]
  obtain ⟨e, he⟩ := embedAll_error_of_mem embed (([doc] : List Document).flatMap chunkDoc)
    (by rw [hflat]; exact h)
  have hproc : process_documents_for_embedding embed [doc] = .error e := he
  refine ⟨⟨e, hproc⟩, ?_⟩
  rw [initialize_source_retriever, hproc]

/-- Witness for C2: a provider that always fails on the one-chunk document
`{id := "d", text := "x"}` leaves the empty store empty. -/
theorem C2_fail_fast_ingestion_witness :
    (∃ e, process_documents_for_embedding
        (fun _ => (Result.error () : Result Unit (List Int))) (⟨'d' :: [], 'x' :: []⟩ :: []) =
          .error e) ∧
      initialize_source_retriever (fun _ => (Result.error () : Result Unit (List Int))) []
          ⟨'d' :: [], 'x' :: []⟩ = ([], false) :=
  C2_fail_fast_ingestion (fun _ => Result.error ()) [] ⟨'d' :: [], 'x' :: []⟩
    ⟨⟨('d' :: '_' :: 'c' :: 'h' :: 'u' :: 'n' :: 'k' :: '1' :: []), 'x' :: [], none⟩,
      by decide, (), rfl⟩

/-- Distinct numbers have distinct decimal representations. -/
lemma natDigits_injective : Function.Injective natDigits := by
  intro m n h
  have hm := natDigits_leftInverse m
  rw [h, natDigits_leftInverse n] at hm
  exact hm.symm

/-- Distinct chunk indices give distinct id suffixes. -/
lemma chunkTag_injective : Function.Injective chunkTag := by
  intro m n h
  exact natDigits_injective (List.append_cancel_left h)

/-- Mapping a function of the index over `l.enum` is mapping it over
`range l.length`. -/
lemma enum_map_index {α β : Type} (l : List α) (f : Nat → β) :
    l.enum.map (fun p => f p.1) = (List.range l.length).map f := by
  rw [List.enum_eq_zip_range]
  have h1 : (fun p : Nat × α => f p.1) = f ∘ Prod.fst := rfl
  rw [h1, ← List.map_map, List.map_fst_zip]
  rw [List.length_range]

/-- The ids produced by the chunking pass are exactly the 1-based tagged ids,
in scan order. -/
lemma chunkDoc_ids (doc : Document) :
    (chunkDoc doc).map (fun ch => ch.id) =
      (List.range (chunkDoc doc).length).map (fun i => doc.id ++ chunkTag (i + 1)) := by
  unfold chunkDoc
  rw [List.map_map, List.length_map, List.enum_length]
  exact enum_map_index _ (fun i => doc.id ++ chunkTag (i + 1))

/-- A successful embedding pass preserves ids and texts chunk by chunk. -/
lemma embedAll_ok_preserves {ε : Type} (embed : List Char → Result ε (List Int)) :
    ∀ (cs out : List ChunkRec), embedAll embed cs = .ok out →
      out.map (fun ch => ch.id) = cs.map (fun ch => ch.id) ∧
        out.map (fun ch => ch.text) = cs.map (fun ch => ch.text) := by
  intro cs
  induction cs with
  | nil =>
      intro out h
      rw [embedAll] at h
      cases h
      exact ⟨rfl, rfl⟩
  | cons c0 rest ih =>
      intro out h
      rw [embedAll] at h
      cases hc : embed c0.text with
      | error e => rw [hc] at h; exact absurd h (by simp)
      | ok v =>
          rw [hc] at h
          cases hrest : embedAll embed rest with
          | error e => rw [hrest] at h; exact absurd h (by simp)
          | ok rest2 =>
              rw [hrest] at h
              cases h
              obtain ⟨hid, htext⟩ := ih rest2 hrest
              constructor
              · simp only [List.map_cons, hid]
              · simp only [List.map_cons, htext]

/-- C6: a successfully processed document yields chunk records whose ids are
exactly `{document.id}_chunk{n}` for `n = 1, 2, ...` in scan order; those ids
are pairwise distinct; and processing depends only on the id and text of the
document, so the identical document processed twice yields the identical
output. -/
theorem C6_chunk_ids {ε : Type} (embed : List Char → Result ε (List Int))
    (doc : Document) (out : List ChunkRec)
    (hok : process_documents_for_embedding embed [doc] = .ok out) :
    out.map (fun ch => ch.id) =
        (List.range out.length).map (fun i => doc.id ++ chunkTag (i + 1)) ∧
      (out.map (fun ch => ch.id)).Nodup ∧
      ∀ doc2 : Document, doc2.id = doc.id → doc2.text = doc.text →
        process_documents_for_embedding embed [doc2] = .ok out := by
  have hflat : ([doc] : List Document).flatMap chunkDoc = chunkDoc doc := by
    simp [List.flatMap]
  rw [process_documents_for_embedding, hflat] at hok
  obtain ⟨hid, _⟩ := embedAll_ok_preserves embed (chunkDoc doc) out hok
  have hlen : out.length = (chunkDoc doc).length := by
    have := congrArg List.length hid
    simpa using this
  have hids : out.map (fun ch => ch.id) =
      (List.range out.length).map (fun i => doc.id ++ chunkTag (i + 1)) := by
    rw [hid, chunkDoc_ids doc, hlen]
  refine ⟨hids, ?_, ?_⟩
  · rw [hids]
    refine (List.nodup_range out.length).map ?_
    intro i j hij
    have h1 : chunkTag (i + 1) = chunkTag (j + 1) := List.append_cancel_left hij
    have := chunkTag_injective h1
    omega
  · intro doc2 hid2 htext2
    have : doc2 = doc := by
      cases doc2
      cases doc
      simp only at hid2 htext2
      rw [hid2, htext2]
    rw [this, process_documents_for_embedding, hflat]
    exact hok

/-- Witness for C6: the document `{id := "d", text := "x"}` with an
always-succeeding provider yields the single chunk id `d_chunk1`, no
duplicates. -/
theorem C6_chunk_ids_witness :
    ((⟨('d' :: '_' :: 'c' :: 'h' :: 'u' :: 'n' :: 'k' :: '1' :: []), 'x' :: [],
          some []⟩ : ChunkRec) :: []).map (fun ch => ch.id) =
        (List.range ((⟨('d' :: '_' :: 'c' :: 'h' :: 'u' :: 'n' :: 'k' :: '1' :: []),
          'x' :: [], some []⟩ : ChunkRec) :: []).length).map
          (fun i => ('d' :: []) ++ chunkTag (i + 1)) ∧
      (((⟨('d' :: '_' :: 'c' :: 'h' :: 'u' :: 'n' :: 'k' :: '1' :: []), 'x' :: [],
          some []⟩ : ChunkRec) :: []).map (fun ch => ch.id)).Nodup := by
  have h := C6_chunk_ids (fun _ => (Result.ok [] : Result Unit (List Int)))
    ⟨'d' :: [], 'x' :: []⟩
    ((⟨('d' :: '_' :: 'c' :: 'h' :: 'u' :: 'n' :: 'k' :: '1' :: []), 'x' :: [],
      some []⟩ : ChunkRec) :: []) (by decide)
  exact ⟨h.1, h.2.1⟩

/-- C7: `query_documents` returns exactly `min k (size of store)` ranked
chunks — never more than `k`, fewer than `k` only when the store holds fewer
than `k` chunks — the empty store yields `[]` for every `k`, and the ranked
sequence is sorted nearest-first by the distance metric. -/
theorem C7_query_topk (embedQ : List Char → List Int) (store : List Entry)
    (question : List Char) (k : Nat) :
    (query_documents embedQ store question k).length = min k store.length ∧
      query_documents embedQ [] question k = [] ∧
      List.Sorted
        (fun x y => sqDist x.embedding (embedQ question) ≤
          sqDist y.embedding (embedQ question))
        ((store.insertionSort
          (fun x y => sqDist x.embedding (embedQ question) ≤
            sqDist y.embedding (embedQ question))).take k) := by
  refine ⟨?_, ?_, ?_⟩
  · have hlen : (store.insertionSort
        (fun x y => sqDist x.embedding (embedQ question) ≤
          sqDist y.embedding (embedQ question))).length = store.length :=
      (store.perm_insertionSort _).length_eq
    simp [query_documents, collectionQuery, List.length_take, hlen]
  · simp [query_documents, collectionQuery]
  · haveI : IsTotal Entry (fun x y => sqDist x.embedding (embedQ question) ≤
        sqDist y.embedding (embedQ question)) := ⟨fun a b => le_total _ _⟩
    haveI : IsTrans Entry (fun x y => sqDist x.embedding (embedQ question) ≤
        sqDist y.embedding (embedQ question)) := ⟨fun a b c2 h1 h2 => le_trans h1 h2⟩
    exact (List.sorted_insertionSort _ store).sublist (List.take_sublist k _)

/-- C8: the answer composer sends the provider exactly the fixed template
with the chunks joined in the given order by the fixed separator and returns
the trimmed provider response; the context block embeds the joined chunk
sequence injectively in the prompt (no reordering, deduplication or
truncation happens between the input list and the prompt). -/
theorem C8_generate_response_shape (generate : List Char → List Char)
    (question : List Char) (chunks : List (List Char)) :
    generate_response generate question chunks =
        pyStrip (generate (instrText ++ ctxHeader ++
          List.intercalate sepNN chunks ++ questionHeader ++ question)) ∧
      ∀ chunks2 : List (List Char),
        instrText ++ ctxHeader ++ List.intercalate sepNN chunks ++
            questionHeader ++ question =
          instrText ++ ctxHeader ++ List.intercalate sepNN chunks2 ++
            questionHeader ++ question →
        List.intercalate sepNN chunks = List.intercalate sepNN chunks2 := by
  refine ⟨rfl, ?_⟩
  intro chunks2 h
  exact List.append_cancel_left (List.append_cancel_right (List.append_cancel_right h))

/-- Witness for C8 with the identity provider, one question and one chunk. -/
theorem C8_generate_response_shape_witness :
    generate_response (fun s => s) ('q' :: []) (('a' :: []) :: []) =
        pyStrip (instrText ++ ctxHeader ++
          List.intercalate sepNN (('a' :: []) :: []) ++ questionHeader ++
          ('q' :: [])) ∧
      List.intercalate sepNN (('a' :: []) :: []) =
        List.intercalate sepNN (('a' :: []) :: []) := by
  have h := C8_generate_response_shape (fun s => s) ('q' :: []) (('a' :: []) :: [])
  exact ⟨h.1, h.2 (('a' :: []) :: []) rfl⟩

end RagIntro
